import Mathlib

/-!
Verification of the `MetadataReader` component (src/reader.js) of
passport-saml-metadata: a shallow embedding of the reader's derived
properties (entityID, identifierFormat, identityProviderUrl, logoutUrl,
the certificate accessors and claimSchema) together with proofs about
their selection, normalization and error-handling behaviour.

The XML parser and the namespace-aware XPath engine are external
collaborators of the reader.  A document is therefore embedded as the
node lists those collaborators hand back for the fixed queries the
reader issues, plus the claim attribute elements against which the
dynamically built FriendlyName lookup queries of `claimSchema` are
evaluated by a model of the engine restricted to the query shapes the
reader generates.
-/

/-- An XML attribute node as exposed by the DOM: its `name` and its
string `value` (`nodeValue` of an attribute node is the same string). -/
structure Attr where
  name : String
  value : String
deriving Repr, DecidableEq

/-- An XML element as the reader uses it: only its attribute list (in
document order) is ever inspected. -/
structure Element where
  attributes : List Attr
deriving Repr, DecidableEq

/-- A thrown JavaScript error: a TypeError from reading a property of
`undefined`/`null`, or an error raised by the XPath engine while
evaluating a query. -/
inductive JsErr where
  | typeError (msg : String)
  | xpathError (msg : String)
deriving Repr, DecidableEq

instance {α : Type} [DecidableEq α] : DecidableEq (Except JsErr α) := fun a b =>
  match a, b with
  | .ok x, .ok y => if h : x = y then .isTrue (by rw [h]) else .isFalse (by simp [h])
  | .error e, .error f => if h : e = f then .isTrue (by rw [h]) else .isFalse (by simp [h])
  | .ok _, .error _ => .isFalse (by simp)
  | .error _, .ok _ => .isFalse (by simp)

/-- The reader's options after the constructor merges caller overrides
onto the defaults. -/
structure Options where
  authnRequestBinding : String
  throwExceptions : Bool
deriving Repr, DecidableEq

/-- The `defaultOptions` object of reader.js. -/
def defaultOptions : Options :=
  { authnRequestBinding := "HTTP-Redirect", throwExceptions := false }

/-- The parsed metadata document, embedded as the results the XPath
engine returns for each fixed query the reader issues.  Every query
field is an `Except` so that a runtime query failure can be represented
(`this.query` rethrows engine errors unchanged).  Certificate nodes
carry `firstChild.data` — `none` models a node whose `firstChild` is
null, so that reading `.data` throws.  The `claim:Attribute` elements
are kept whole so that the interpolated FriendlyName lookups of
`claimSchema` can be evaluated against them; `claimNamesErr` injects a
failure of the top-level `@Name` enumeration query. -/
structure Doc where
  entityIDQ : Except JsErr (List Attr)
  nameIDFormatQ : Except JsErr (List String)
  ssoQ : Except JsErr (List Element)
  sloQ : Except JsErr (List Element)
  encCertQ : Except JsErr (List (Option String))
  sigCertQ : Except JsErr (List (Option String))
  claimAttrs : List Element
  claimNamesErr : Option JsErr
deriving Repr, DecidableEq

/-- lodash `find` over a list: the first element satisfying the
predicate, if any. -/
def lodashFind {α : Type} (p : α → Bool) (l : List α) : Option α :=
  l.find? p

/-- Attribute lookup by name, modelling lodash
`find(element.attributes, matcher-on-name)`. -/
def findAttrNamed (e : Element) (n : String) : Option Attr :=
  lodashFind (fun a => a.name == n) e.attributes

/-- Attribute lookup by value, modelling lodash
`find(element.attributes, matcher-on-value)`: the first attribute —
whatever its name — whose value is `v`. -/
def findAttrValued (e : Element) (v : String) : Option Attr :=
  lodashFind (fun a => a.value == v) e.attributes

/-- Attribute value lookup by attribute name. -/
def getAttr (e : Element) (n : String) : Option String :=
  (findAttrNamed e n).map Attr.value

/-- Characters matched by the JavaScript regex class `\s` (hence by the
reader's `[\r\n\t\s]` character class): ASCII whitespace, no-break
space, the Unicode space separators, line/paragraph separators and the
byte-order mark. -/
def isJsWs (c : Char) : Bool :=
  let n := c.toNat
  n == 32 || n == 9 || n == 10 || n == 13 || n == 11 || n == 12 ||
  n == 0xa0 || n == 0x1680 || (0x2000 ≤ n && n ≤ 0x200a) ||
  n == 0x2028 || n == 0x2029 || n == 0x202f || n == 0x205f ||
  n == 0x3000 || n == 0xfeff

/-- Models the reader's `.replace(/[\r\n\t\s]/gm, "")`: delete every
whitespace character, wherever it occurs. -/
def stripAllWs (s : String) : String :=
  String.mk (s.data.filter (fun c => !(isJsWs c)))

/-- Models JavaScript `String.prototype.trim()`: strip leading and
trailing whitespace only. -/
def jsTrim (s : String) : String :=
  String.mk (((s.data.dropWhile isJsWs).reverse.dropWhile isJsWs).reverse)

/-- Decimal digit test. -/
def isDigitChar (c : Char) : Bool :=
  48 ≤ c.toNat && c.toNat ≤ 57

/-- Value of a list of decimal digits. -/
def digitsToNat (ds : List Char) : Nat :=
  ds.foldl (fun a c => a * 10 + (c.toNat - 48)) 0

/-- Models JavaScript `ToNumber` on a string, as invoked by the
relational comparison lodash `sortBy` performs between a string
criterion and the number 0; restricted to optionally signed decimal
integer spellings (the shape SAML `index` attributes take).  A
whitespace-only string converts to 0; any other spelling outside the
modelled fragment is NaN (`none`). -/
def strToNum (s : String) : Option Int :=
  match (s.data.dropWhile isJsWs).reverse.dropWhile isJsWs |>.reverse with
  | [] => some 0
  | c :: ds =>
    if c == '-' then
      if !ds.isEmpty && ds.all isDigitChar then some (-(digitsToNat ds : Int)) else none
    else if c == '+' then
      if !ds.isEmpty && ds.all isDigitChar then some ((digitsToNat ds : Int)) else none
    else if (c :: ds).all isDigitChar then some ((digitsToNat (c :: ds) : Int)) else none

/-- Lexicographic comparison of character lists by code point,
modelling the JavaScript `<` relation on two strings. -/
def charListLt : List Char → List Char → Bool
  | _, [] => false
  | [], _ :: _ => true
  | a :: as, b :: bs => a.toNat < b.toNat || (a.toNat == b.toNat && charListLt as bs)

/-- A `sortBy` criterion value: the reader's iteratee returns either the
raw `index` attribute string or the number 0. -/
inductive SortKey where
  | num (n : Int)
  | str (s : String)
deriving Repr, DecidableEq

/-- Models the JavaScript `<` comparison between two criterion values as
performed by lodash `compareAscending`: two strings compare
lexicographically, a string against a number converts the string to a
number, and a NaN comparison is false. -/
def keyLt : SortKey → SortKey → Bool
  | .num a, .num b => a < b
  | .str a, .str b => charListLt a.data b.data
  | .str a, .num b => match strToNum a with | some n => decide (n < b) | none => false
  | .num a, .str b => match strToNum b with | some n => decide (a < n) | none => false

/-- Stable insertion of `x` into a list sorted on `key`: `x` lands in
front of the first element it compares strictly below, hence behind
every element it ties with. -/
def insertSorted {α : Type} (key : α → SortKey) (x : α) : List α → List α
  | [] => [x]
  | y :: ys => if keyLt (key x) (key y) then x :: y :: ys else y :: insertSorted key x ys

/-- Models lodash `sortBy` (documented as a stable sort): sort `xs`
comparing the criterion `key x` of each element with
`compareAscending`. -/
def lodashSortBy {α : Type} (key : α → SortKey) (xs : List α) : List α :=
  xs.foldl (fun acc x => insertSorted key x acc) []

/-- The `sortBy` iteratee of `identityProviderUrl`/`logoutUrl`: the raw
string value of the `index` attribute when present, otherwise the
number 0. -/
def serviceSortKey (e : Element) : SortKey :=
  match findAttrNamed e "index" with
  | some a => .str a.value
  | none => .num 0

/-- The fixed SAML binding URI namespace the reader prepends to the
configured `authnRequestBinding`. -/
def bindingUriBase : String := "urn:oasis:names:tc:SAML:2.0:bindings:"

/-- The binding-match step: the first element, in sorted order, having
any attribute — of whatever name — whose value equals the target
binding URI. -/
def bindingFind (uri : String) (es : List Element) : Option Element :=
  lodashFind (fun e => (findAttrValued e uri).isSome) es

/-- Body of the `identityProviderUrl` try-block: sort the
SingleSignOnService elements by index, pick the binding match or fall
back to the first sorted element, and read its `Location` attribute;
reading a property of a missing element or attribute throws a
TypeError. -/
def identityProviderUrlCore (binding : String) (elems : List Element) : Except JsErr String :=
  let sorted := lodashSortBy serviceSortKey elems
  let uri := bindingUriBase ++ binding
  match (bindingFind uri sorted).orElse (fun _ => sorted.head?) with
  | none => .error (.typeError "reading attributes of undefined")
  | some e =>
    match findAttrNamed e "Location" with
    | none => .error (.typeError "reading value of undefined")
    | some a => .ok a.value

/-- Body of the `logoutUrl` try-block, duplicated in the source over the
SingleLogoutService elements. -/
def logoutUrlCore (binding : String) (elems : List Element) : Except JsErr String :=
  let sorted := lodashSortBy serviceSortKey elems
  let uri := bindingUriBase ++ binding
  match (bindingFind uri sorted).orElse (fun _ => sorted.head?) with
  | none => .error (.typeError "reading attributes of undefined")
  | some e =>
    match findAttrNamed e "Location" with
    | none => .error (.typeError "reading value of undefined")
    | some a => .ok a.value

/-- The uniform catch-block of every getter: a successful body value is
returned (`some`), a thrown error is rethrown unchanged when
`throwExceptions` is set and otherwise converted to the absent value
`undefined` (`none`). -/
def catchUndefined {α : Type} (opts : Options) (body : Except JsErr α) : Except JsErr (Option α) :=
  match body with
  | .ok v => .ok (some v)
  | .error e => if opts.throwExceptions then .error e else .ok none

/-- Getter `entityID`: first node of the entityID attribute query;
indexing an empty result gives `undefined`, whose `nodeValue` read
throws. -/
def entityID (opts : Options) (doc : Doc) : Except JsErr (Option String) :=
  catchUndefined opts (do
    let nodes ← doc.entityIDQ
    match nodes.head? with
    | none => Except.error (.typeError "reading nodeValue of undefined")
    | some a => pure a.value)

/-- Getter `identifierFormat`: first text node of the NameIDFormat
query. -/
def identifierFormat (opts : Options) (doc : Doc) : Except JsErr (Option String) :=
  catchUndefined opts (do
    let nodes ← doc.nameIDFormatQ
    match nodes.head? with
    | none => Except.error (.typeError "reading nodeValue of undefined")
    | some v => pure v)

/-- Getter `identityProviderUrl`. -/
def identityProviderUrl (opts : Options) (doc : Doc) : Except JsErr (Option String) :=
  catchUndefined opts (do
    let elems ← doc.ssoQ
    identityProviderUrlCore opts.authnRequestBinding elems)

/-- Getter `logoutUrl`. -/
def logoutUrl (opts : Options) (doc : Doc) : Except JsErr (Option String) :=
  catchUndefined opts (do
    let elems ← doc.sloQ
    logoutUrlCore opts.authnRequestBinding elems)

/-- The `.map` body shared by the certificate list accessors: for each
X509Certificate node take `firstChild.data` (throwing when `firstChild`
is null) and strip all whitespace exactly when `trimNewLines` is
`true`. -/
def certsFromNodes (trimNewLines : Bool) (nodes : List (Option String)) :
    Except JsErr (List String) :=
  nodes.mapM (fun d =>
    match d with
    | none => Except.error (.typeError "reading data of null")
    | some t => Except.ok (if trimNewLines then stripAllWs t else t))

/-- Method `encryptionCerts(trimNewLines = true)`. -/
def encryptionCerts (opts : Options) (doc : Doc) (trimNewLines : Bool) :
    Except JsErr (Option (List String)) :=
  catchUndefined opts (do
    let nodes ← doc.encCertQ
    certsFromNodes trimNewLines nodes)

/-- Method `encryptionCert(trimNewLines = true)`: first element of
`encryptionCerts`, trimmed at both ends unconditionally; indexing the
absent value or trimming a missing element throws inside the
try-block. -/
def encryptionCert (opts : Options) (doc : Doc) (trimNewLines : Bool) :
    Except JsErr (Option String) :=
  catchUndefined opts (do
    let certs? ← encryptionCerts opts doc trimNewLines
    match certs? with
    | none => Except.error (.typeError "indexing undefined")
    | some certs =>
      match certs.head? with
      | none => Except.error (.typeError "reading trim of undefined")
      | some c => pure (jsTrim c))

/-- Method `signingCerts(trimNewLines = true)`. -/
def signingCerts (opts : Options) (doc : Doc) (trimNewLines : Bool) :
    Except JsErr (Option (List String)) :=
  catchUndefined opts (do
    let nodes ← doc.sigCertQ
    certsFromNodes trimNewLines nodes)

/-- Method `signingCert(trimNewLines = true)`. -/
def signingCert (opts : Options) (doc : Doc) (trimNewLines : Bool) :
    Except JsErr (Option String) :=
  catchUndefined opts (do
    let certs? ← signingCerts opts doc trimNewLines
    match certs? with
    | none => Except.error (.typeError "indexing undefined")
    | some certs =>
      match certs.head? with
      | none => Except.error (.typeError "reading trim of undefined")
      | some c => pure (jsTrim c))

/-- ASCII lower-case letter test. -/
def isAsciiLower (c : Char) : Bool :=
  97 ≤ c.toNat && c.toNat ≤ 122

/-- ASCII upper-case letter test. -/
def isAsciiUpper (c : Char) : Bool :=
  65 ≤ c.toNat && c.toNat ≤ 90

/-- Character class for the word splitter: 1 lower, 2 upper, 3 digit,
0 delimiter. -/
def charClass (c : Char) : Nat :=
  if isAsciiLower c then 1 else if isAsciiUpper c then 2 else if isDigitChar c then 3 else 0

/-- Split a character list into maximal same-class runs (fuelled; the
fuel is at least the list length plus one). -/
def runsAux : Nat → List Char → List (Nat × List Char)
  | 0, _ => []
  | _ + 1, [] => []
  | fuel + 1, c :: rest =>
    let k := charClass c
    (k, (c :: rest).takeWhile (fun d => charClass d == k)) ::
      runsAux fuel ((c :: rest).dropWhile (fun d => charClass d == k))

/-- Turn the run list into words: delimiter runs vanish, and an
upper-case run directly followed by a lower-case run donates its last
letter to that run (the camel hump rule: a maximal upper run keeps all
but its last letter when a lower-case letter follows). -/
def mergeRuns : List (Nat × List Char) → List (List Char)
  | [] => []
  | (0, _) :: rest => mergeRuns rest
  | (2, us) :: (1, ls) :: rest =>
    if us.length ≥ 2 then
      us.dropLast :: (us.drop (us.length - 1) ++ ls) :: mergeRuns rest
    else
      (us ++ ls) :: mergeRuns rest
  | (_, cs) :: rest => cs :: mergeRuns rest

/-- ASCII lower-casing of one character. -/
def toLowerChar (c : Char) : Char :=
  if isAsciiUpper c then Char.ofNat (c.toNat + 32) else c

/-- ASCII upper-casing of one character. -/
def toUpperChar (c : Char) : Char :=
  if isAsciiLower c then Char.ofNat (c.toNat - 32) else c

/-- Models lodash `camelCase` on ASCII word content (the shape
FriendlyName values take): apostrophes are removed, the string splits
into words at non-alphanumeric delimiters, digit boundaries and case
humps; the first word is lower-cased and every further word is
lower-cased then capitalized.  Lodash's ordinal-suffix handling
("1st", "2nd", …) and non-ASCII case mapping lie outside the modelled
fragment. -/
def lodashCamelCase (s : String) : String :=
  let cs := s.data.filter (fun c => !(c == '\'' || c == '’'))
  match mergeRuns (runsAux (cs.length + 1) cs) with
  | [] => ""
  | w :: rest =>
    String.mk (w.map toLowerChar ++
      (rest.map (fun v =>
        match v.map toLowerChar with
        | [] => ([] : List Char)
        | d :: ds => toUpperChar d :: ds)).flatten)

/-- Drop an expected exact leading character sequence. -/
def dropExact : List Char → List Char → Option (List Char)
  | [], cs => some cs
  | _ :: _, [] => none
  | p :: ps, c :: cs => if p == c then dropExact ps cs else none

/-- Scan the body of a double-quoted XPath string literal: the
characters before the closing quote, and the remainder after it. -/
def takeLit : List Char → Option (List Char × List Char)
  | [] => none
  | c :: cs =>
    if c == '"' then some ([], cs)
    else (takeLit cs).map (fun p => (c :: p.1, p.2))

/-- Parser for the predicate fragment of the claim lookup queries the
reader builds by string interpolation: one or more comparisons of the
form `@Name="literal"` joined by the XPath `or` operator.  This models
the external XPath engine's grammar on exactly the expression shapes
the interpolation can produce; any other text is a syntax error
(`none`). -/
def parseNameClauses : Nat → List Char → Option (List String)
  | 0, _ => none
  | fuel + 1, cs =>
    match dropExact "@Name=\"".data cs with
    | none => none
    | some cs1 =>
      match takeLit cs1 with
      | none => none
      | some (lit, rest) =>
        match rest with
        | [] => some [String.mk lit]
        | _ :: _ =>
          match dropExact " or ".data rest with
          | none => none
          | some rest1 =>
            match parseNameClauses fuel rest1 with
            | none => none
            | some lits => some (String.mk lit :: lits)

/-- Fixed part of the claim lookup query before the predicate. -/
def claimQueryHead : String := "//md:IDPSSODescriptor/claim:Attribute["

/-- Fixed part of the claim lookup query after the predicate. -/
def claimQueryTail : String := "]/@FriendlyName"

/-- The interpolated FriendlyName lookup query `claimSchema` builds for
a claim name. -/
def buildClaimQuery (name : String) : String :=
  claimQueryHead ++ "@Name=\"" ++ name ++ "\"" ++ claimQueryTail

/-- Models the XPath engine (external collaborator) on the queries
`claimSchema` generates: after the fixed element path, a predicate
parsed by `parseNameClauses` selects the claim:Attribute elements whose
`Name` attribute equals one of the parsed literals, and the query
returns their `FriendlyName` attribute values in document order.  A
query not of this shape is a syntax error, which the engine (and the
reader's `this.query` wrapper) throws. -/
def evalClaimQuery (doc : Doc) (q : String) : Except JsErr (List String) :=
  match dropExact claimQueryHead.data q.data with
  | none => .error (.xpathError q)
  | some midTail =>
    let tail := claimQueryTail.data
    if midTail.length < tail.length then .error (.xpathError q)
    else if midTail.drop (midTail.length - tail.length) == tail then
      match parseNameClauses (midTail.length + 1) (midTail.take (midTail.length - tail.length)) with
      | none => .error (.xpathError q)
      | some lits =>
        .ok (doc.claimAttrs.filterMap (fun el =>
          match getAttr el "Name" with
          | some n => if lits.contains n then getAttr el "FriendlyName" else none
          | none => none))
    else .error (.xpathError q)

/-- The FriendlyName resolution step of `claimSchema`:
`this.query(interpolated)[0].value`. -/
def resolveFriendly (doc : Doc) (name : String) : Except JsErr String := do
  let nodes ← evalClaimQuery doc (buildClaimQuery name)
  match nodes.head? with
  | none => Except.error (.typeError "reading value of undefined")
  | some v => pure v

/-- A claim descriptor as stored in the claimSchema mapping. -/
structure Claim where
  name : String
  description : String
  camelCase : String
deriving Repr, DecidableEq

/-- JavaScript object insertion: assigning to an existing key keeps its
position and updates the value; a fresh key is appended. -/
def upsert (m : List (String × Claim)) (k : String) (v : Claim) : List (String × Claim) :=
  if m.any (fun p => p.1 == k) then m.map (fun p => if p.1 == k then (k, v) else p)
  else m ++ [(k, v)]

/-- Result of the top-level `@Name` enumeration query of `claimSchema`:
the `Name` attribute nodes of the claim:Attribute elements in document
order, unless a query failure is injected. -/
def claimNamesResult (doc : Doc) : Except JsErr (List Attr) :=
  match doc.claimNamesErr with
  | some e => .error e
  | none => .ok (doc.claimAttrs.filterMap (fun el => findAttrNamed el "Name"))

/-- One step of `claimSchema`'s reduce, with its inner try/catch:
resolve the FriendlyName for the current `Name` node and insert the
claim descriptor under the node's value; on failure this node is
skipped — the accumulator is returned unchanged — unless
`throwExceptions` is set, in which case the error propagates. -/
def claimStep (opts : Options) (doc : Doc) (claims : List (String × Claim)) (node : Attr) :
    Except JsErr (List (String × Claim)) :=
  match resolveFriendly doc node.value with
  | .ok description =>
    .ok (upsert claims node.value
      { name := node.value, description := description
        camelCase := lodashCamelCase description })
  | .error e => if opts.throwExceptions then .error e else .ok claims

/-- Getter `claimSchema`: fold the claim descriptors over the
enumerated `Name` nodes; a failure escaping the reduce yields the empty
mapping — not the absent value — unless `throwExceptions` is set, in
which case it is rethrown. -/
def claimSchema (opts : Options) (doc : Doc) :
    Except JsErr (Option (List (String × Claim))) :=
  match (do
    let nodes ← claimNamesResult doc
    nodes.foldlM (claimStep opts doc) ([] : List (String × Claim))) with
  | .ok m => .ok (some m)
  | .error e => if opts.throwExceptions then .error e else .ok (some [])

/-- Canonical decimal digit lists: nonempty, all digits, no leading
zero. -/
def canonDigitList : List Char → Bool
  | [] => false
  | c :: cs => (c :: cs).all isDigitChar && (!(c == '0') || cs.isEmpty)

/-- Canonical decimal spelling of an index value — the lexical space of
the numeric (`unsignedShort`) SAML `index` attribute. -/
def canonDigits (s : String) : Bool := canonDigitList s.data

/-- Canonical sort keys: the number 0 (a missing index) or a canonical
digit string. -/
def canonKey : SortKey → Bool
  | .num n => n == 0
  | .str s => canonDigits s

/-- Decimal spelling of a canonical key, the number 0 spelt "0": the
linearization along which the sort comparisons are analysed. -/
def keyRep : SortKey → List Char
  | .num _ => ['0']
  | .str s => s.data

/-- Characters with equal code points are equal. -/
theorem char_eq_of_toNat_eq {a b : Char} (h : a.toNat = b.toNat) : a = b :=
  Char.eq_of_val_eq (UInt32.ext h)

/-- Unfolding of the lexicographic comparison on nonempty lists. -/
theorem charListLt_cons_iff {x y : Char} {xs ys : List Char} :
    charListLt (x :: xs) (y :: ys) = true ↔
      x.toNat < y.toNat ∨ (x.toNat = y.toNat ∧ charListLt xs ys = true) := by
  simp [charListLt]

/-- Nothing is lexicographically below the empty list. -/
theorem charListLt_nil_right (a : List Char) : charListLt a [] = false := by
  cases a <;> rfl

/-- The lexicographic comparison is irreflexive. -/
theorem charListLt_irrefl : ∀ a : List Char, charListLt a a = false
  | [] => rfl
  | c :: cs => by simp [charListLt, charListLt_irrefl cs]

/-- The lexicographic comparison is transitive. -/
theorem charListLt_trans : ∀ a b c : List Char,
    charListLt a b = true → charListLt b c = true → charListLt a c = true
  | _, b, [], _, h2 => by rw [charListLt_nil_right] at h2; exact absurd h2 (by simp)
  | [], _, _ :: _, _, _ => by simp [charListLt]
  | _ :: _, [], _, h1, _ => by
    rw [charListLt_nil_right] at h1; exact absurd h1 (by simp)
  | x :: xs, y :: ys, z :: zs, h1, h2 => by
    rw [charListLt_cons_iff] at h1 h2 ⊢
    rcases h1 with h1 | ⟨e1, h1⟩
    · rcases h2 with h2 | ⟨e2, h2⟩
      · exact Or.inl (by omega)
      · exact Or.inl (by omega)
    · rcases h2 with h2 | ⟨e2, h2⟩
      · exact Or.inl (by omega)
      · exact Or.inr ⟨by omega, charListLt_trans xs ys zs h1 h2⟩

/-- Two lists neither of which is lexicographically below the other are
equal. -/
theorem charListLt_conn : ∀ a b : List Char,
    charListLt a b = false → charListLt b a = false → a = b
  | [], [], _, _ => rfl
  | [], _ :: _, h1, _ => by simp [charListLt] at h1
  | _ :: _, [], _, h2 => by simp [charListLt] at h2
  | x :: xs, y :: ys, h1, h2 => by
    have hx : ¬ (x.toNat < y.toNat ∨ (x.toNat = y.toNat ∧ charListLt xs ys = true)) := by
      rw [← charListLt_cons_iff, h1]; simp
    have hy : ¬ (y.toNat < x.toNat ∨ (y.toNat = x.toNat ∧ charListLt ys xs = true)) := by
      rw [← charListLt_cons_iff, h2]; simp
    push_neg at hx hy
    have exy : x.toNat = y.toNat := by omega
    have hxs : charListLt xs ys = false := by
      have := hx.2 exy
      revert this; cases charListLt xs ys <;> simp
    have hys : charListLt ys xs = false := by
      have := hy.2 exy.symm
      revert this; cases charListLt ys xs <;> simp
    rw [char_eq_of_toNat_eq exy, charListLt_conn xs ys hxs hys]

/-- The lexicographic comparison is asymmetric. -/
theorem charListLt_asymm {a b : List Char} (h : charListLt a b = true) :
    charListLt b a = false := by
  by_contra hc
  have hba : charListLt b a = true := by revert hc; cases charListLt b a <;> simp
  have := charListLt_trans a b a h hba
  rw [charListLt_irrefl] at this
  exact absurd this (by simp)

/-- A digit is not a whitespace character. -/
theorem not_ws_of_digit {c : Char} (h : isDigitChar c = true) : isJsWs c = false := by
  simp [isDigitChar] at h
  simp [isJsWs]
  omega

/-- Dropping leading whitespace from a digit string is the identity. -/
theorem dropWhile_ws_of_digits {ds : List Char} (h : ds.all isDigitChar = true) :
    List.dropWhile isJsWs ds = ds := by
  cases ds with
  | nil => rfl
  | cons c cs =>
    have hc : isDigitChar c = true := by
      simp [List.all_cons] at h; exact h.1
    simp [List.dropWhile_cons, not_ws_of_digit hc]

/-- The digit-fold never decreases. -/
theorem digitsFold_le (ds : List Char) :
    ∀ acc : Nat, acc ≤ ds.foldl (fun a c => a * 10 + (c.toNat - 48)) acc := by
  induction ds with
  | nil => intro acc; simp
  | cons c cs ih =>
    intro acc
    have h1 : acc ≤ acc * 10 + (c.toNat - 48) := by omega
    have h2 := ih (acc * 10 + (c.toNat - 48))
    simp only [List.foldl_cons]
    omega

/-- A digit string starting above the digit zero has positive value. -/
theorem digitsToNat_pos {c : Char} (cs : List Char) (h : 48 < c.toNat) :
    0 < digitsToNat (c :: cs) := by
  unfold digitsToNat
  have := digitsFold_le cs (0 * 10 + (c.toNat - 48))
  simp only [List.foldl_cons]
  omega

/-- A canonical digit list is all digits. -/
theorem canonDigitList_all {c : Char} {cs : List Char}
    (h : canonDigitList (c :: cs) = true) : (c :: cs).all isDigitChar = true := by
  simp only [canonDigitList, Bool.and_eq_true] at h
  exact h.1

/-- The head of a canonical digit list is a digit. -/
theorem canonDigitList_head {c : Char} {cs : List Char}
    (h : canonDigitList (c :: cs) = true) : isDigitChar c = true := by
  have hall := canonDigitList_all h
  simp [List.all_cons] at hall
  exact hall.1

/-- A canonical digit list starting with the digit zero is exactly
"0". -/
theorem canonDigitList_lead {c : Char} {cs : List Char}
    (h : canonDigitList (c :: cs) = true) (h0 : c = '0') : cs = [] := by
  simp only [canonDigitList, Bool.and_eq_true, Bool.or_eq_true] at h
  rcases h.2 with hh | hh
  · rw [h0] at hh; simp at hh
  · simpa using hh

/-- On a canonical digit string the modelled `ToNumber` conversion
yields exactly the digit value. -/
theorem strToNum_canon {s : String} (h : canonDigits s = true) :
    strToNum s = some ((digitsToNat s.data : Int)) := by
  unfold canonDigits at h
  unfold strToNum
  match hs : s.data with
  | [] => rw [hs] at h; simp [canonDigitList] at h
  | c :: cs =>
    rw [hs] at h
    have hall := canonDigitList_all h
    have hc := canonDigitList_head h
    have hallrev : (c :: cs).reverse.all isDigitChar = true := by
      rw [List.all_reverse]; exact hall
    rw [dropWhile_ws_of_digits hall, dropWhile_ws_of_digits hallrev, List.reverse_reverse]
    have hdash : (c == '-') = false := by
      apply beq_eq_false_iff_ne.mpr
      intro e; rw [e] at hc; simp [isDigitChar] at hc
    have hplus : (c == '+') = false := by
      apply beq_eq_false_iff_ne.mpr
      intro e; rw [e] at hc; simp [isDigitChar] at hc
    simp [hdash, hplus, hall]

/-- Comparing the number 0 below a canonical digit string agrees with
the lexicographic comparison of their spellings. -/
theorem keyLt_num0_str {s : String} (h : canonDigits s = true) :
    keyLt (.num 0) (.str s) = charListLt ['0'] s.data := by
  have hrw : keyLt (.num 0) (.str s) =
      (match strToNum s with
       | some k => decide ((0 : Int) < k)
       | none => false) := rfl
  rw [hrw, strToNum_canon h]
  show decide ((0 : Int) < (digitsToNat s.data : Int)) = charListLt ['0'] s.data
  have hcd := h
  unfold canonDigits at hcd
  match hs : s.data with
  | [] => rw [hs] at hcd; simp [canonDigitList] at hcd
  | c :: cs =>
    rw [hs] at hcd
    have hc := canonDigitList_head hcd
    by_cases h0 : c = '0'
    · have hcs := canonDigitList_lead hcd h0
      subst h0; subst hcs
      decide
    · have hgt : 48 < c.toNat := by
        simp [isDigitChar] at hc
        have hne : c.toNat ≠ 48 := by
          intro e
          exact h0 (char_eq_of_toNat_eq (a := c) (b := '0') e)
        omega
      have hpos := digitsToNat_pos cs hgt
      have hl : decide ((0 : Int) < (digitsToNat (c :: cs) : Int)) = true := by
        simp only [decide_eq_true_eq]
        exact_mod_cast hpos
      rw [hl]
      symm
      apply charListLt_cons_iff.mpr
      exact Or.inl (by exact hgt)

/-- A canonical digit string never compares below the number 0, in
agreement with the lexicographic comparison of the spellings. -/
theorem keyLt_str_num0 {s : String} (h : canonDigits s = true) :
    keyLt (.str s) (.num 0) = charListLt s.data ['0'] := by
  have hrw : keyLt (.str s) (.num 0) =
      (match strToNum s with
       | some k => decide (k < (0 : Int))
       | none => false) := rfl
  rw [hrw, strToNum_canon h]
  show decide ((digitsToNat s.data : Int) < 0) = charListLt s.data ['0']
  have hl : decide ((digitsToNat s.data : Int) < (0 : Int)) = false := by
    simp
  rw [hl]
  have hcd := h
  unfold canonDigits at hcd
  match hs : s.data with
  | [] => rw [hs] at hcd; simp [canonDigitList] at hcd
  | c :: cs =>
    rw [hs] at hcd
    have hc := canonDigitList_head hcd
    have h48 : ¬ (c.toNat < 48) := by
      simp [isDigitChar] at hc; omega
    symm
    apply Bool.eq_false_iff.mpr
    intro habs
    rcases charListLt_cons_iff.mp habs with hh | ⟨_, hh⟩
    · exact h48 (by exact hh)
    · rw [charListLt_nil_right] at hh
      exact absurd hh (by simp)

/-- Canonical keys embed into the lexicographic order on their decimal
spellings: on canonical keys the lodash comparison is the pullback of
`charListLt` along `keyRep`. -/
theorem keyLt_canon : ∀ {a b : SortKey}, canonKey a = true → canonKey b = true →
    keyLt a b = charListLt (keyRep a) (keyRep b)
  | .num n, .num m, ha, hb => by
    simp [canonKey] at ha hb
    subst ha; subst hb
    decide
  | .num n, .str s, ha, hb => by
    simp only [canonKey] at ha hb
    have hn : n = 0 := by simpa using ha
    subst hn
    simpa [keyRep] using keyLt_num0_str hb
  | .str s, .num m, ha, hb => by
    simp only [canonKey] at ha hb
    have hm : m = 0 := by simpa using hb
    subst hm
    simpa [keyRep] using keyLt_str_num0 ha
  | .str s, .str t, _, _ => rfl

/-- Stable insertion only rearranges: the result is a permutation of
consing the new element. -/
theorem insertSorted_perm {α : Type} (key : α → SortKey) (x : α) (l : List α) :
    List.Perm (insertSorted key x l) (x :: l) := by
  induction l with
  | nil => exact List.Perm.refl _
  | cons y ys ih =>
    unfold insertSorted
    by_cases h : keyLt (key x) (key y) = true
    · rw [if_pos h]
    · rw [if_neg h]
      exact (ih.cons y).trans (List.Perm.swap x y ys)

/-- Membership in a stable insertion. -/
theorem mem_insertSorted {α : Type} {key : α → SortKey} {x y : α} {l : List α} :
    y ∈ insertSorted key x l ↔ y = x ∨ y ∈ l := by
  rw [(insertSorted_perm key x l).mem_iff]
  simp

/-- The insertion fold computes a permutation of the elements seen so
far prepended to the accumulator. -/
theorem foldl_insert_perm {α : Type} (key : α → SortKey) :
    ∀ (xs acc : List α),
      List.Perm (xs.foldl (fun a x => insertSorted key x a) acc) (xs ++ acc)
  | [], acc => by simp
  | x :: xs, acc => by
    simp only [List.foldl_cons]
    exact (foldl_insert_perm key xs (insertSorted key x acc)).trans
      ((List.Perm.append_left xs (insertSorted_perm key x acc)).trans List.perm_middle)

/-- The reader's sortBy returns a permutation of its input. -/
theorem lodashSortBy_perm {α : Type} (key : α → SortKey) (xs : List α) :
    List.Perm (lodashSortBy key xs) xs := by
  unfold lodashSortBy
  simpa using foldl_insert_perm key xs []

/-- Attach ascending positions to a list, starting at `k`: the document
positions of the service elements. -/
def tagFrom {α : Type} : Nat → List α → List (Nat × α)
  | _, [] => []
  | n, x :: xs => (n, x) :: tagFrom (n + 1) xs

/-- Tags in `tagFrom k es` are at least `k`, and the carried elements
are members of `es`. -/
theorem mem_tagFrom {α : Type} :
    ∀ {k : Nat} {es : List α} {p : Nat × α}, p ∈ tagFrom k es → k ≤ p.1 ∧ p.2 ∈ es := by
  intro k es
  induction es generalizing k with
  | nil => intro p hp; simp [tagFrom] at hp
  | cons x xs ih =>
    intro p hp
    simp only [tagFrom, List.mem_cons] at hp
    rcases hp with rfl | hp
    · exact ⟨Nat.le_refl _, by simp⟩
    · have := ih hp
      exact ⟨by omega, by simp [this.2]⟩

/-- The tags are strictly increasing along `tagFrom`. -/
theorem tagFrom_pairwise_lt {α : Type} :
    ∀ (k : Nat) (es : List α), (tagFrom k es).Pairwise (fun p q => p.1 < q.1)
  | _, [] => List.Pairwise.nil
  | k, x :: xs => by
    refine List.Pairwise.cons ?_ (tagFrom_pairwise_lt (k + 1) xs)
    intro q hq
    have := (mem_tagFrom hq).1
    omega

/-- Forgetting the tags recovers the original list. -/
theorem tagFrom_map_snd {α : Type} :
    ∀ (k : Nat) (es : List α), (tagFrom k es).map Prod.snd = es
  | _, [] => rfl
  | k, x :: xs => by simp [tagFrom, tagFrom_map_snd (k + 1) xs]

/-- Strict precedence on position-tagged service elements: strictly
smaller key spelling, or equal key spelling and smaller document
position.  An output pairwise ordered by this relation is exactly an
ascending and stable sort of the input. -/
def TaggedBefore (p q : Nat × Element) : Prop :=
  charListLt (keyRep (serviceSortKey p.2)) (keyRep (serviceSortKey q.2)) = true ∨
    (keyRep (serviceSortKey p.2) = keyRep (serviceSortKey q.2) ∧ p.1 < q.1)

/-- Inserting an element whose position tag exceeds every tag present
preserves the strict stable ordering, provided all keys are
canonical. -/
theorem insertSorted_pairwise_tagged (x : Nat × Element) (l : List (Nat × Element))
    (hcx : canonKey (serviceSortKey x.2) = true)
    (hcl : ∀ p ∈ l, canonKey (serviceSortKey p.2) = true)
    (hidx : ∀ p ∈ l, p.1 < x.1)
    (hp : l.Pairwise TaggedBefore) :
    (insertSorted (fun p => serviceSortKey p.2) x l).Pairwise TaggedBefore := by
  induction l with
  | nil => simp [insertSorted]
  | cons y ys ih =>
    have hcy : canonKey (serviceSortKey y.2) = true := hcl y (by simp)
    unfold insertSorted
    by_cases h : keyLt (serviceSortKey x.2) (serviceSortKey y.2) = true
    · rw [if_pos h]
      have hxy : charListLt (keyRep (serviceSortKey x.2)) (keyRep (serviceSortKey y.2)) = true := by
        rw [← keyLt_canon hcx hcy]; exact h
      refine List.Pairwise.cons ?_ hp
      intro z hz
      rcases List.mem_cons.mp hz with rfl | hz
      · exact Or.inl hxy
      · have hyz : TaggedBefore y z := List.rel_of_pairwise_cons hp hz
        rcases hyz with hyz | ⟨hyz, _⟩
        · exact Or.inl (charListLt_trans _ _ _ hxy hyz)
        · exact Or.inl (hyz ▸ hxy)
    · rw [if_neg h]
      have hxyF : charListLt (keyRep (serviceSortKey x.2)) (keyRep (serviceSortKey y.2)) = false := by
        rw [← keyLt_canon hcx hcy]
        revert h; cases keyLt (serviceSortKey x.2) (serviceSortKey y.2) <;> simp
      refine List.Pairwise.cons ?_ ?_
      · intro w hw
        rcases mem_insertSorted.mp hw with rfl | hw
        · cases hlt : charListLt (keyRep (serviceSortKey y.2)) (keyRep (serviceSortKey w.2)) with
          | true => exact Or.inl hlt
          | false =>
            have heq := charListLt_conn _ _ hlt hxyF
            exact Or.inr ⟨heq, hidx y (by simp)⟩
        · exact List.rel_of_pairwise_cons hp hw
      · exact ih (fun p hp2 => hcl p (by simp [hp2])) (fun p hp2 => hidx p (by simp [hp2]))
          hp.tail

/-- The insertion fold over tagged elements with increasing tags keeps
the accumulator pairwise ordered by the strict stable precedence. -/
theorem foldl_insert_pairwise_tagged :
    ∀ (rest acc : List (Nat × Element)),
      (∀ p ∈ acc, canonKey (serviceSortKey p.2) = true) →
      (∀ p ∈ rest, canonKey (serviceSortKey p.2) = true) →
      (∀ p ∈ acc, ∀ q ∈ rest, p.1 < q.1) →
      rest.Pairwise (fun p q => p.1 < q.1) →
      acc.Pairwise TaggedBefore →
      (rest.foldl (fun a x => insertSorted (fun p => serviceSortKey p.2) x a) acc).Pairwise
        TaggedBefore
  | [], _, _, _, _, _, hacc => by simpa using hacc
  | x :: rest, acc, hca, hcr, hlt, hrest, hacc => by
    simp only [List.foldl_cons]
    apply foldl_insert_pairwise_tagged rest
    · intro p hp
      rcases mem_insertSorted.mp hp with rfl | hp
      · exact hcr p (by simp)
      · exact hca p hp
    · intro p hp
      exact hcr p (by simp [hp])
    · intro p hp q hq
      rcases mem_insertSorted.mp hp with rfl | hp
      · exact List.rel_of_pairwise_cons hrest hq
      · exact hlt p hp q (by simp [hq])
    · exact hrest.tail
    · exact insertSorted_pairwise_tagged x acc (hcr x (by simp)) hca
        (fun p hp => hlt p hp x (by simp)) hacc

/-- The stable sort of the position-tagged service elements is pairwise
ordered by the strict stable precedence when every key is canonical. -/
theorem sortTagged_pairwise (es : List Element)
    (hc : ∀ e ∈ es, canonKey (serviceSortKey e) = true) :
    (lodashSortBy (fun p => serviceSortKey p.2) (tagFrom 0 es)).Pairwise TaggedBefore := by
  unfold lodashSortBy
  apply foldl_insert_pairwise_tagged (tagFrom 0 es) []
  · intro p hp; simp at hp
  · intro p hp; exact hc p.2 (mem_tagFrom hp).2
  · intro p hp; simp at hp
  · exact tagFrom_pairwise_lt 0 es
  · exact List.Pairwise.nil

/-- Inserting commutes with forgetting the tags. -/
theorem map_snd_insertSorted (x : Nat × Element) (l : List (Nat × Element)) :
    (insertSorted (fun p => serviceSortKey p.2) x l).map Prod.snd
      = insertSorted serviceSortKey x.2 (l.map Prod.snd) := by
  induction l with
  | nil => rfl
  | cons y ys ih =>
    show (if keyLt (serviceSortKey x.2) (serviceSortKey y.2) then x :: y :: ys
          else y :: insertSorted (fun p => serviceSortKey p.2) x ys).map Prod.snd
        = if keyLt (serviceSortKey x.2) (serviceSortKey y.2) then x.2 :: y.2 :: ys.map Prod.snd
          else y.2 :: insertSorted serviceSortKey x.2 (ys.map Prod.snd)
    by_cases h : keyLt (serviceSortKey x.2) (serviceSortKey y.2) = true
    · rw [if_pos h, if_pos h]; rfl
    · rw [if_neg h, if_neg h]
      simp [ih]

/-- The insertion fold over the tagged list projects to the insertion
fold over the bare list. -/
theorem map_snd_foldl_insert :
    ∀ (es : List Element) (k : Nat) (acc : List (Nat × Element)),
      ((tagFrom k es).foldl
          (fun a x => insertSorted (fun p => serviceSortKey p.2) x a) acc).map Prod.snd
        = es.foldl (fun a x => insertSorted serviceSortKey x a) (acc.map Prod.snd)
  | [], _, acc => by simp [tagFrom]
  | e :: es, k, acc => by
    simp only [tagFrom, List.foldl_cons]
    rw [map_snd_foldl_insert es (k + 1) (insertSorted (fun p => serviceSortKey p.2) (k, e) acc),
      map_snd_insertSorted]

/-- Sorting the tagged list and forgetting the tags is sorting the
bare list. -/
theorem map_snd_sortTagged (es : List Element) :
    (lodashSortBy (fun p => serviceSortKey p.2) (tagFrom 0 es)).map Prod.snd
      = lodashSortBy serviceSortKey es := by
  unfold lodashSortBy
  simpa using map_snd_foldl_insert es 0 []

/-- The sorted service list is pairwise non-descending under the lodash
comparison when every key is canonical. -/
theorem sorted_pairwise_le (es : List Element)
    (hc : ∀ e ∈ es, canonKey (serviceSortKey e) = true) :
    (lodashSortBy serviceSortKey es).Pairwise
      (fun a b => keyLt (serviceSortKey b) (serviceSortKey a) = false) := by
  have htag := sortTagged_pairwise es hc
  rw [← map_snd_sortTagged es, List.pairwise_map]
  apply htag.imp_of_mem
  intro p q hp hq hpq
  have hmemp : p ∈ tagFrom 0 es :=
    (lodashSortBy_perm (fun r => serviceSortKey r.2) (tagFrom 0 es)).subset hp
  have hmemq : q ∈ tagFrom 0 es :=
    (lodashSortBy_perm (fun r => serviceSortKey r.2) (tagFrom 0 es)).subset hq
  have hcp : canonKey (serviceSortKey p.2) = true := hc p.2 (mem_tagFrom hmemp).2
  have hcq : canonKey (serviceSortKey q.2) = true := hc q.2 (mem_tagFrom hmemq).2
  rw [keyLt_canon hcq hcp]
  rcases hpq with hlt | ⟨heq, _⟩
  · exact charListLt_asymm hlt
  · rw [heq]
    exact charListLt_irrefl _

/-- Characterization of lodash `find`: the found element satisfies the
predicate and everything before it refutes it. -/
theorem lodashFind_spec {α : Type} {p : α → Bool} :
    ∀ {l : List α} {x : α}, lodashFind p l = some x →
      p x = true ∧ ∃ l1 l2, l = l1 ++ x :: l2 ∧ ∀ y ∈ l1, p y = false := by
  intro l
  induction l with
  | nil => intro x h; simp [lodashFind] at h
  | cons a as ih =>
    intro x h
    unfold lodashFind at h
    by_cases hpa : p a = true
    · rw [List.find?_cons_of_pos _ hpa] at h
      injection h with h
      subst h
      exact ⟨hpa, [], as, rfl, by simp⟩
    · have hpa' : p a = false := by revert hpa; cases p a <;> simp
      rw [List.find?_cons_of_neg _ (by simp [hpa'])] at h
      obtain ⟨hx, l1, l2, hsplit, hl1⟩ := ih h
      refine ⟨hx, a :: l1, l2, by simp [hsplit], ?_⟩
      intro y hy
      rcases List.mem_cons.mp hy with rfl | hy
      · exact hpa'
      · exact hl1 y hy

/-- Service endpoint fixture carrying an index and a location. -/
def svcIdx (i loc : String) : Element :=
  { attributes := [⟨"index", i⟩, ⟨"Location", loc⟩] }

/-- Service endpoint fixture with no index attribute. -/
def svcNoIdx (loc : String) : Element :=
  { attributes := [⟨"Location", loc⟩] }

/-- Document fixture: every query empty except the SingleSignOnService
element list. -/
def mkSsoDoc (es : List Element) : Doc :=
  { entityIDQ := .ok [], nameIDFormatQ := .ok [], ssoQ := .ok es, sloQ := .ok [],
    encCertQ := .ok [], sigCertQ := .ok [], claimAttrs := [], claimNamesErr := none }

/-- Claim attribute element fixture with a Name and a FriendlyName. -/
def claimAttr (n fn : String) : Element :=
  { attributes := [⟨"Name", n⟩, ⟨"FriendlyName", fn⟩] }

/-- Claim attribute element fixture with a Name but no FriendlyName. -/
def claimAttrBare (n : String) : Element :=
  { attributes := [⟨"Name", n⟩] }

/-- Document fixture carrying only claim attribute elements. -/
def mkClaimDoc (es : List Element) : Doc :=
  { mkSsoDoc [] with claimAttrs := es }

/-- First counterexample element: its `Binding` attribute is the POST
binding URI, but another attribute carries the redirect binding URI. -/
def c1e1 : Element :=
  { attributes := [⟨"Binding", "urn:oasis:names:tc:SAML:2.0:bindings:HTTP-POST"⟩,
                   ⟨"ProtocolSupport", "urn:oasis:names:tc:SAML:2.0:bindings:HTTP-Redirect"⟩,
                   ⟨"Location", "http://wrong.example.com/sso"⟩] }

/-- Second counterexample element: its `Binding` attribute genuinely is
the redirect binding URI. -/
def c1e2 : Element :=
  { attributes := [⟨"Binding", "urn:oasis:names:tc:SAML:2.0:bindings:HTTP-Redirect"⟩,
                   ⟨"Location", "http://right.example.com/sso"⟩] }

/-- C1 counterexample: the binding-match step selects the first sorted
element any of whose attribute values equals the binding URI, so an
element whose `Binding` attribute differs from the URI is selected when
a different attribute of it carries that URI — here ahead of a later
element whose `Binding` does match — and `identityProviderUrl` returns
the former's location. -/
theorem c1_counterexample :
    bindingFind (bindingUriBase ++ "HTTP-Redirect")
        (lodashSortBy serviceSortKey [c1e1, c1e2]) = some c1e1
    ∧ getAttr c1e1 "Binding" = some "urn:oasis:names:tc:SAML:2.0:bindings:HTTP-POST"
    ∧ getAttr c1e1 "Binding" ≠ some (bindingUriBase ++ "HTTP-Redirect")
    ∧ getAttr c1e2 "Binding" = some (bindingUriBase ++ "HTTP-Redirect")
    ∧ identityProviderUrl defaultOptions (mkSsoDoc [c1e1, c1e2])
        = .ok (some "http://wrong.example.com/sso") :=
  ⟨by decide, by decide, by decide, by decide, by decide⟩

/-- C1 (amended): the binding-match step selects the first element of
the sorted list having any attribute — regardless of its name — whose
value equals the URI formed by prepending the fixed SAML binding URI
prefix to the configured binding; an element none of whose attribute
values equals that URI is never selected by the match step. -/
theorem c1_match_any_attribute (uri : String) (es : List Element) (e : Element)
    (h : bindingFind uri es = some e) :
    (∃ a ∈ e.attributes, a.value = uri)
    ∧ ∃ l1 l2, es = l1 ++ e :: l2 ∧ ∀ e' ∈ l1, ∀ a ∈ e'.attributes, a.value ≠ uri := by
  obtain ⟨hx, l1, l2, hsplit, hl1⟩ := lodashFind_spec h
  constructor
  · have : ∃ a, findAttrValued e uri = some a := by
      revert hx
      cases hfa : findAttrValued e uri <;> simp
    obtain ⟨a, ha⟩ := this
    rw [findAttrValued, lodashFind] at ha
    have hmem := List.mem_of_find?_eq_some ha
    have hav := List.find?_some ha
    exact ⟨a, hmem, by simpa using hav⟩
  · refine ⟨l1, l2, hsplit, ?_⟩
    intro e' he' a ha hav
    have hfalse := hl1 e' he'
    have : findAttrValued e' uri = none := by
      revert hfalse
      cases hfa : findAttrValued e' uri <;> simp
    rw [findAttrValued, lodashFind, List.find?_eq_none] at this
    exact absurd (by simpa using hav) (this a ha)

/-- Witness for the amended C1 at a concrete input. -/
theorem c1_match_any_attribute_witness :
    bindingFind (bindingUriBase ++ "HTTP-Redirect") [c1e1, c1e2] = some c1e1
    ∧ ((∃ a ∈ c1e1.attributes, a.value = bindingUriBase ++ "HTTP-Redirect")
       ∧ ∃ l1 l2, [c1e1, c1e2] = l1 ++ c1e1 :: l2
           ∧ ∀ e' ∈ l1, ∀ a ∈ e'.attributes, a.value ≠ bindingUriBase ++ "HTTP-Redirect") :=
  ⟨by decide, c1_match_any_attribute (bindingUriBase ++ "HTTP-Redirect") [c1e1, c1e2] c1e1
    (by decide)⟩

/-- C2: with canonical decimal index spellings — the lexical space of
the numeric SAML `index` attribute — the service sort is a permutation
of the input, pairwise non-descending under the lodash comparison, and
stable: tagging each element with its document position, the sorted
tagged list is strictly ordered by key spelling with the position as
tie-break, a missing index being spelt "0"; in particular indices
2, 0, 1 in document order sort to 0, 1, 2, and missing-index elements
keep document order among themselves and around a true index-0
element. -/
theorem c2_sort_ascending_stable (es : List Element)
    (hc : ∀ e ∈ es, canonKey (serviceSortKey e) = true) :
    List.Perm (lodashSortBy serviceSortKey es) es
    ∧ (lodashSortBy serviceSortKey es).Pairwise
        (fun a b => keyLt (serviceSortKey b) (serviceSortKey a) = false)
    ∧ (lodashSortBy (fun p => serviceSortKey p.2) (tagFrom 0 es)).map Prod.snd
        = lodashSortBy serviceSortKey es
    ∧ (lodashSortBy (fun p => serviceSortKey p.2) (tagFrom 0 es)).Pairwise TaggedBefore
    ∧ lodashSortBy serviceSortKey [svcIdx "2" "u2", svcIdx "0" "u0", svcIdx "1" "u1"]
        = [svcIdx "0" "u0", svcIdx "1" "u1", svcIdx "2" "u2"]
    ∧ lodashSortBy serviceSortKey [svcNoIdx "m1", svcIdx "0" "z0", svcNoIdx "m2"]
        = [svcNoIdx "m1", svcIdx "0" "z0", svcNoIdx "m2"] :=
  ⟨lodashSortBy_perm serviceSortKey es, sorted_pairwise_le es hc, map_snd_sortTagged es,
    sortTagged_pairwise es hc, by decide, by decide⟩

/-- Witness for C2 at a concrete input. -/
theorem c2_sort_ascending_stable_witness :
    (∀ e ∈ [svcIdx "2" "u2", svcNoIdx "m"], canonKey (serviceSortKey e) = true)
    ∧ List.Perm (lodashSortBy serviceSortKey [svcIdx "2" "u2", svcNoIdx "m"])
        [svcIdx "2" "u2", svcNoIdx "m"] :=
  ⟨by decide, (c2_sort_ascending_stable [svcIdx "2" "u2", svcNoIdx "m"] (by decide)).1⟩

/-- Reduction of bind on a thrown error. -/
theorem except_bind_error {α β : Type} (e : JsErr) (f : α → Except JsErr β) :
    (Except.error e >>= f) = Except.error e := rfl

/-- Reduction of bind on a successful value. -/
theorem except_bind_ok {α β : Type} (v : α) (f : α → Except JsErr β) :
    (Except.ok v >>= f) = f v := rfl

/-- Reduction of pure into the Except monad. -/
theorem except_pure {α : Type} (v : α) : (pure v : Except JsErr α) = Except.ok v := rfl

/-- A getter result obeys the fail-soft contract: it is a present
value, or the image of one thrown error — rethrown when
`throwExceptions` is set, the absent value `undefined` otherwise. -/
def FailSoft {α : Type} (opts : Options) (r : Except JsErr (Option α)) : Prop :=
  (∃ v, r = .ok (some v)) ∨
    ∃ e, r = (if opts.throwExceptions then .error e else .ok none)

/-- The uniform catch-block realizes the fail-soft contract. -/
theorem catchUndefined_failSoft {α : Type} (opts : Options) (body : Except JsErr α) :
    FailSoft opts (catchUndefined opts body) := by
  cases body with
  | ok v => exact Or.inl ⟨v, rfl⟩
  | error e => exact Or.inr ⟨e, rfl⟩

/-- C3 counterexample: on a document whose top-level claim enumeration
fails, with `throwExceptions` false, `claimSchema` returns the present
empty mapping, which is not the absent value `undefined`. -/
theorem c3_counterexample :
    claimSchema defaultOptions { mkSsoDoc [] with claimNamesErr := some (.xpathError "boom") }
        = .ok (some [])
    ∧ (Except.ok (some []) : Except JsErr (Option (List (String × Claim)))) ≠ .ok none :=
  ⟨by decide, by decide⟩

/-- C3 (amended): every derived property evaluates its try-block and
either returns the computed value or hits one thrown error; a query
failure is rethrown unchanged when `throwExceptions` is set and is
otherwise converted to the absent value `undefined` — except
`claimSchema`, whose non-throwing failure result is the present empty
mapping. -/
theorem c3_fail_soft (opts : Options) (doc : Doc) (trim : Bool) :
    (∀ e, doc.entityIDQ = .error e →
      entityID opts doc = (if opts.throwExceptions then .error e else .ok none))
    ∧ (∀ e, doc.nameIDFormatQ = .error e →
        identifierFormat opts doc = (if opts.throwExceptions then .error e else .ok none))
    ∧ (∀ e, doc.ssoQ = .error e →
        identityProviderUrl opts doc = (if opts.throwExceptions then .error e else .ok none))
    ∧ (∀ e, doc.sloQ = .error e →
        logoutUrl opts doc = (if opts.throwExceptions then .error e else .ok none))
    ∧ (∀ e, doc.encCertQ = .error e →
        encryptionCerts opts doc trim = (if opts.throwExceptions then .error e else .ok none)
        ∧ encryptionCert opts doc trim = (if opts.throwExceptions then .error e else .ok none))
    ∧ (∀ e, doc.sigCertQ = .error e →
        signingCerts opts doc trim = (if opts.throwExceptions then .error e else .ok none)
        ∧ signingCert opts doc trim = (if opts.throwExceptions then .error e else .ok none))
    ∧ (∀ e, doc.claimNamesErr = some e →
        claimSchema opts doc = (if opts.throwExceptions then .error e else .ok (some [])))
    ∧ FailSoft opts (entityID opts doc)
    ∧ FailSoft opts (identifierFormat opts doc)
    ∧ FailSoft opts (identityProviderUrl opts doc)
    ∧ FailSoft opts (logoutUrl opts doc)
    ∧ FailSoft opts (encryptionCerts opts doc trim)
    ∧ FailSoft opts (encryptionCert opts doc trim)
    ∧ FailSoft opts (signingCerts opts doc trim)
    ∧ FailSoft opts (signingCert opts doc trim)
    ∧ ((∃ m, claimSchema opts doc = .ok (some m)) ∨
        ∃ e, claimSchema opts doc = (if opts.throwExceptions then .error e else .ok (some []))) := by
  refine ⟨?_, ?_, ?_, ?_, ?_, ?_, ?_, ?_, ?_, ?_, ?_, ?_, ?_, ?_, ?_, ?_⟩
  · intro e h
    simp [entityID, h, catchUndefined, except_bind_error]
  · intro e h
    simp [identifierFormat, h, catchUndefined, except_bind_error]
  · intro e h
    simp [identityProviderUrl, h, catchUndefined, except_bind_error]
  · intro e h
    simp [logoutUrl, h, catchUndefined, except_bind_error]
  · intro e h
    constructor
    · simp [encryptionCerts, h, catchUndefined, except_bind_error]
    · by_cases ht : opts.throwExceptions = true
      · simp [encryptionCert, encryptionCerts, h, catchUndefined, except_bind_error, ht]
      · have ht' : opts.throwExceptions = false := by
          revert ht; cases opts.throwExceptions <;> simp
        simp [encryptionCert, encryptionCerts, h, catchUndefined, except_bind_error,
          except_bind_ok, ht']
  · intro e h
    constructor
    · simp [signingCerts, h, catchUndefined, except_bind_error]
    · by_cases ht : opts.throwExceptions = true
      · simp [signingCert, signingCerts, h, catchUndefined, except_bind_error, ht]
      · have ht' : opts.throwExceptions = false := by
          revert ht; cases opts.throwExceptions <;> simp
        simp [signingCert, signingCerts, h, catchUndefined, except_bind_error,
          except_bind_ok, ht']
  · intro e h
    simp [claimSchema, claimNamesResult, h, except_bind_error]
  · exact catchUndefined_failSoft opts _
  · exact catchUndefined_failSoft opts _
  · exact catchUndefined_failSoft opts _
  · exact catchUndefined_failSoft opts _
  · exact catchUndefined_failSoft opts _
  · exact catchUndefined_failSoft opts _
  · exact catchUndefined_failSoft opts _
  · exact catchUndefined_failSoft opts _
  · cases hdo : (do
        let nodes ← claimNamesResult doc
        nodes.foldlM (claimStep opts doc) ([] : List (String × Claim))) with
    | ok m =>
      refine Or.inl ⟨m, ?_⟩
      unfold claimSchema
      rw [hdo]
    | error e =>
      refine Or.inr ⟨e, ?_⟩
      unfold claimSchema
      rw [hdo]

/-- Witness for C3 at a concrete input. -/
theorem c3_fail_soft_witness :
    ({ mkSsoDoc [] with entityIDQ := .error (.xpathError "q") } : Doc).entityIDQ
        = .error (.xpathError "q")
    ∧ entityID defaultOptions { mkSsoDoc [] with entityIDQ := .error (.xpathError "q") }
        = .ok none :=
  ⟨by decide, by
    have h := (c3_fail_soft defaultOptions
      { mkSsoDoc [] with entityIDQ := .error (.xpathError "q") } true).1
      (.xpathError "q") (by decide)
    simpa [defaultOptions] using h⟩

/-- The non-throwing reduce of `claimSchema`: each `Name` node whose
FriendlyName resolves is upserted, each failing one is skipped. -/
def claimFoldPure (doc : Doc) (nodes : List Attr) (acc : List (String × Claim)) :
    List (String × Claim) :=
  nodes.foldl (fun claims node =>
    match resolveFriendly doc node.value with
    | .ok d => upsert claims node.value
        { name := node.value, description := d, camelCase := lodashCamelCase d }
    | .error _ => claims) acc

/-- Keys present after an upsert: the old keys plus the inserted
one. -/
theorem upsert_keys (m : List (String × Claim)) (k : String) (v : Claim) (n : String) :
    (∃ p ∈ upsert m k v, p.1 = n) ↔ (∃ p ∈ m, p.1 = n) ∨ n = k := by
  unfold upsert
  by_cases h : m.any (fun p => p.1 == k) = true
  · rw [if_pos h]
    have hex : ∃ q, q ∈ m ∧ q.1 = k := by
      rcases List.any_eq_true.mp h with ⟨q, hq, hqk⟩
      exact ⟨q, hq, by simpa using hqk⟩
    constructor
    · rintro ⟨p, hp, rfl⟩
      obtain ⟨r, hr, hrp⟩ := List.mem_map.mp hp
      by_cases hrk : (r.1 == k) = true
      · rw [if_pos hrk] at hrp
        exact Or.inr (by rw [← hrp])
      · rw [if_neg hrk] at hrp
        exact Or.inl ⟨r, hr, by rw [hrp]⟩
    · intro hcase
      rcases hcase with ⟨p, hp, hpn⟩ | hnk
      · by_cases hpk : (p.1 == k) = true
        · refine ⟨(k, v), List.mem_map.mpr ⟨p, hp, by rw [if_pos hpk]⟩, ?_⟩
          have hpkeq : p.1 = k := by simpa using hpk
          show k = n
          rw [← hpkeq]
          exact hpn
        · exact ⟨p, List.mem_map.mpr ⟨p, hp, by rw [if_neg hpk]⟩, hpn⟩
      · obtain ⟨q, hq, hqk⟩ := hex
        exact ⟨(k, v), List.mem_map.mpr ⟨q, hq, by rw [if_pos (by simpa using hqk)]⟩, hnk.symm⟩
  · rw [if_neg h]
    constructor
    · rintro ⟨p, hp, rfl⟩
      rcases List.mem_append.mp hp with hp | hp
      · exact Or.inl ⟨p, hp, rfl⟩
      · have hpkv : p = (k, v) := by simpa using hp
        rw [hpkv]
        exact Or.inr rfl
    · intro hcase
      rcases hcase with ⟨p, hp, hpn⟩ | hnk
      · exact ⟨p, List.mem_append.mpr (Or.inl hp), hpn⟩
      · exact ⟨(k, v), List.mem_append.mpr (Or.inr (by simp)), hnk.symm⟩

/-- Keys of the non-throwing reduce: the accumulator's keys plus the
values of exactly those `Name` nodes whose FriendlyName resolves. -/
theorem claimFoldPure_keys (doc : Doc) :
    ∀ (nodes : List Attr) (acc : List (String × Claim)) (n : String),
      (∃ p ∈ claimFoldPure doc nodes acc, p.1 = n) ↔
        ((∃ p ∈ acc, p.1 = n) ∨
          ∃ node ∈ nodes, node.value = n ∧ ∃ d, resolveFriendly doc node.value = .ok d)
  | [], acc, n => by simp [claimFoldPure]
  | node :: rest, acc, n => by
    cases hres : resolveFriendly doc node.value with
    | ok d =>
      have hstep : claimFoldPure doc (node :: rest) acc
          = claimFoldPure doc rest (upsert acc node.value
              { name := node.value, description := d, camelCase := lodashCamelCase d }) := by
        simp [claimFoldPure, List.foldl_cons, hres]
      rw [hstep, claimFoldPure_keys doc rest _ n, upsert_keys]
      constructor
      · rintro (((hacc | rfl) | hrest))
        · exact Or.inl hacc
        · exact Or.inr ⟨node, by simp, rfl, d, hres⟩
        · obtain ⟨m, hm, hv, hd⟩ := hrest
          exact Or.inr ⟨m, by simp [hm], hv, hd⟩
      · rintro (hacc | ⟨m, hm, hv, hd⟩)
        · exact Or.inl (Or.inl hacc)
        · rcases List.mem_cons.mp hm with rfl | hm
          · exact Or.inl (Or.inr hv.symm)
          · exact Or.inr ⟨m, hm, hv, hd⟩
    | error e =>
      have hstep : claimFoldPure doc (node :: rest) acc = claimFoldPure doc rest acc := by
        simp [claimFoldPure, List.foldl_cons, hres]
      rw [hstep, claimFoldPure_keys doc rest acc n]
      constructor
      · rintro (hacc | ⟨m, hm, hv, hd⟩)
        · exact Or.inl hacc
        · exact Or.inr ⟨m, by simp [hm], hv, hd⟩
      · rintro (hacc | ⟨m, hm, hv, hd⟩)
        · exact Or.inl hacc
        · rcases List.mem_cons.mp hm with rfl | hm
          · rw [hres] at hd
            obtain ⟨d, hd⟩ := hd
            exact absurd hd (by simp)
          · exact Or.inr ⟨m, hm, hv, hd⟩

/-- With `throwExceptions` false the reduce never throws and computes
the skip-on-failure fold. -/
theorem claimFold_noThrow (opts : Options) (doc : Doc)
    (hthrow : opts.throwExceptions = false) :
    ∀ (nodes : List Attr) (acc : List (String × Claim)),
      nodes.foldlM (claimStep opts doc) acc = .ok (claimFoldPure doc nodes acc)
  | [], acc => by simp [claimFoldPure, except_pure]
  | node :: rest, acc => by
    cases hres : resolveFriendly doc node.value with
    | ok d =>
      simp only [List.foldlM_cons, claimStep, hres, except_bind_ok]
      rw [claimFold_noThrow opts doc hthrow rest]
      simp [claimFoldPure, List.foldl_cons, hres]
    | error e =>
      simp only [List.foldlM_cons, claimStep, hres, hthrow, Bool.false_eq_true,
        if_false, except_bind_ok]
      rw [claimFold_noThrow opts doc hthrow rest]
      simp [claimFoldPure, List.foldl_cons, hres]

/-- With `throwExceptions` true the reduce propagates the first
resolution failure. -/
theorem claimFold_throws (opts : Options) (doc : Doc)
    (hthrow : opts.throwExceptions = true) :
    ∀ (l1 : List Attr) (node : Attr) (l2 : List Attr) (acc : List (String × Claim)) (e : JsErr),
      (∀ m ∈ l1, ∃ d, resolveFriendly doc m.value = .ok d) →
      resolveFriendly doc node.value = .error e →
      (l1 ++ node :: l2).foldlM (claimStep opts doc) acc = .error e
  | [], node, l2, acc, e, _, hres => by
    simp [List.foldlM_cons, claimStep, hres, hthrow, except_bind_error]
  | m :: l1, node, l2, acc, e, hok, hres => by
    obtain ⟨d, hd⟩ := hok m (by simp)
    simp only [List.cons_append, List.foldlM_cons, claimStep, hd, except_bind_ok]
    exact claimFold_throws opts doc hthrow l1 node l2 _ e
      (fun m' hm' => hok m' (by simp [hm'])) hres

/-- C4: with `throwExceptions` false, `claimSchema` computes the
skip-on-failure fold — a claim whose FriendlyName resolution fails is
omitted while the others are kept, a key being present exactly when
some enumerated `Name` node carries it and resolves; with
`throwExceptions` true, the first resolution failure propagates out of
`claimSchema` and no partial mapping is returned; and when the
top-level enumeration itself fails without throwing, the result is the
empty mapping, not the absent value. -/
theorem c4_claimSchema_partial_failure (opts : Options) (doc : Doc) :
    (∀ nodes, claimNamesResult doc = .ok nodes → opts.throwExceptions = false →
      claimSchema opts doc = .ok (some (claimFoldPure doc nodes []))
      ∧ ∀ n, (∃ p ∈ claimFoldPure doc nodes [], p.1 = n) ↔
          ∃ node ∈ nodes, node.value = n ∧ ∃ d, resolveFriendly doc node.value = .ok d)
    ∧ (∀ nodes l1 node l2 e, claimNamesResult doc = .ok nodes →
        opts.throwExceptions = true → nodes = l1 ++ node :: l2 →
        (∀ m ∈ l1, ∃ d, resolveFriendly doc m.value = .ok d) →
        resolveFriendly doc node.value = .error e →
        claimSchema opts doc = .error e)
    ∧ (∀ e, doc.claimNamesErr = some e → opts.throwExceptions = false →
        claimSchema opts doc = .ok (some [])) := by
  refine ⟨?_, ?_, ?_⟩
  · intro nodes hnodes hthrow
    constructor
    · unfold claimSchema
      rw [hnodes, except_bind_ok, claimFold_noThrow opts doc hthrow nodes]
    · intro n
      rw [claimFoldPure_keys doc nodes [] n]
      simp
  · intro nodes l1 node l2 e hnodes hthrow hsplit hok hres
    unfold claimSchema
    rw [hnodes, except_bind_ok, hsplit, claimFold_throws opts doc hthrow l1 node l2 [] e hok hres]
    simp [hthrow]
  · intro e h hthrow
    simp [claimSchema, claimNamesResult, h, hthrow, except_bind_error]

/-- Witness for C4 at a concrete input: the claim with no resolvable
FriendlyName is skipped, the other kept. -/
theorem c4_claimSchema_partial_failure_witness :
    claimNamesResult
        (mkClaimDoc [claimAttr "urn:email" "Email Address", claimAttrBare "urn:broken"])
      = .ok [⟨"Name", "urn:email"⟩, ⟨"Name", "urn:broken"⟩]
    ∧ claimSchema defaultOptions
        (mkClaimDoc [claimAttr "urn:email" "Email Address", claimAttrBare "urn:broken"])
      = .ok (some (claimFoldPure
          (mkClaimDoc [claimAttr "urn:email" "Email Address", claimAttrBare "urn:broken"])
          [⟨"Name", "urn:email"⟩, ⟨"Name", "urn:broken"⟩] [])) :=
  ⟨by decide,
    ((c4_claimSchema_partial_failure defaultOptions
      (mkClaimDoc [claimAttr "urn:email" "Email Address", claimAttrBare "urn:broken"])).1
      [⟨"Name", "urn:email"⟩, ⟨"Name", "urn:broken"⟩] (by decide) rfl).1⟩

/-- The certificate `.map` body on text-carrying nodes: whitespace is
stripped everywhere exactly when the flag is true. -/
theorem certsFromNodes_map (b : Bool) :
    ∀ datas : List String,
      certsFromNodes b (datas.map some)
        = .ok (datas.map (fun d => if b then stripAllWs d else d))
  | [] => rfl
  | d :: rest => by
    have ih := certsFromNodes_map b rest
    simp only [certsFromNodes, List.map_cons, List.mapM_cons] at ih ⊢
    rw [ih]
    rfl

/-- C5: with `trimWhitespace` true the certificate list operations
delete every whitespace character anywhere in each text blob — in
particular no space, tab, carriage return or newline survives — and
with the flag false they return the text verbatim, while the
single-certificate operations additionally trim leading and trailing
whitespace from their result regardless of the flag. -/
theorem c5_certificate_whitespace (opts : Options) (doc : Doc) (d : String)
    (rest : List String)
    (henc : doc.encCertQ = .ok ((d :: rest).map some))
    (hsig : doc.sigCertQ = .ok ((d :: rest).map some)) :
    encryptionCerts opts doc true = .ok (some ((d :: rest).map stripAllWs))
    ∧ encryptionCerts opts doc false = .ok (some (d :: rest))
    ∧ signingCerts opts doc true = .ok (some ((d :: rest).map stripAllWs))
    ∧ signingCerts opts doc false = .ok (some (d :: rest))
    ∧ encryptionCert opts doc false = .ok (some (jsTrim d))
    ∧ signingCert opts doc false = .ok (some (jsTrim d))
    ∧ encryptionCert opts doc true = .ok (some (jsTrim (stripAllWs d)))
    ∧ signingCert opts doc true = .ok (some (jsTrim (stripAllWs d)))
    ∧ (∀ s : String, ∀ c ∈ (stripAllWs s).data,
        isJsWs c = false ∧ c ≠ ' ' ∧ c ≠ '\t' ∧ c ≠ '\r' ∧ c ≠ '\n')
    ∧ (∀ s : String, (stripAllWs s).data = s.data.filter (fun c => !(isJsWs c))) := by
  have hws : ∀ s : String, ∀ c ∈ (stripAllWs s).data,
      isJsWs c = false ∧ c ≠ ' ' ∧ c ≠ '\t' ∧ c ≠ '\r' ∧ c ≠ '\n' := by
    intro s c hc
    have hmem : c ∈ s.data.filter (fun c => !(isJsWs c)) := by
      simpa [stripAllWs] using hc
    have hnws : isJsWs c = false := by
      have := (List.mem_filter.mp hmem).2
      revert this
      cases isJsWs c <;> simp
    refine ⟨hnws, ?_, ?_, ?_, ?_⟩ <;>
      (intro e; rw [e] at hnws; exact absurd hnws (by decide))
  have hencT : encryptionCerts opts doc true = .ok (some ((d :: rest).map stripAllWs)) := by
    simp only [encryptionCerts, henc, except_bind_ok, certsFromNodes_map true (d :: rest)]
    simp [catchUndefined]
  have hencF : encryptionCerts opts doc false = .ok (some (d :: rest)) := by
    simp only [encryptionCerts, henc, except_bind_ok, certsFromNodes_map false (d :: rest)]
    simp [catchUndefined]
  have hsigT : signingCerts opts doc true = .ok (some ((d :: rest).map stripAllWs)) := by
    simp only [signingCerts, hsig, except_bind_ok, certsFromNodes_map true (d :: rest)]
    simp [catchUndefined]
  have hsigF : signingCerts opts doc false = .ok (some (d :: rest)) := by
    simp only [signingCerts, hsig, except_bind_ok, certsFromNodes_map false (d :: rest)]
    simp [catchUndefined]
  refine ⟨hencT, hencF, hsigT, hsigF, ?_, ?_, ?_, ?_, hws, fun s => by simp [stripAllWs]⟩
  · simp [encryptionCert, hencF, except_bind_ok, catchUndefined, except_pure]
  · simp [signingCert, hsigF, except_bind_ok, catchUndefined, except_pure]
  · simp [encryptionCert, hencT, except_bind_ok, catchUndefined, except_pure]
  · simp [signingCert, hsigT, except_bind_ok, catchUndefined, except_pure]

/-- Witness for C5 at a concrete input: a certificate blob with an
embedded newline and surrounding blanks. -/
theorem c5_certificate_whitespace_witness :
    ({ mkSsoDoc [] with encCertQ := .ok ([" AB\nCD "].map some),
                        sigCertQ := .ok ([" AB\nCD "].map some) } : Doc).encCertQ
      = .ok (([" AB\nCD "] : List String).map some)
    ∧ encryptionCerts defaultOptions
        { mkSsoDoc [] with encCertQ := .ok ([" AB\nCD "].map some),
                           sigCertQ := .ok ([" AB\nCD "].map some) } true
      = .ok (some ([" AB\nCD "].map stripAllWs)) := by
  constructor
  · decide
  · exact (c5_certificate_whitespace defaultOptions
      { mkSsoDoc [] with encCertQ := .ok ([" AB\nCD "].map some),
                         sigCertQ := .ok ([" AB\nCD "].map some) }
      " AB\nCD " [] rfl rfl).1

/-- Upserting preserves a per-entry invariant. -/
theorem upsert_forall {P : String × Claim → Prop} {m : List (String × Claim)}
    {k : String} {v : Claim} (hm : ∀ p ∈ m, P p) (hv : P (k, v)) :
    ∀ p ∈ upsert m k v, P p := by
  intro p hp
  unfold upsert at hp
  by_cases h : m.any (fun q => q.1 == k) = true
  · rw [if_pos h] at hp
    obtain ⟨r, hr, hrp⟩ := List.mem_map.mp hp
    by_cases hrk : (r.1 == k) = true
    · rw [if_pos hrk] at hrp
      rw [← hrp]
      exact hv
    · rw [if_neg hrk] at hrp
      rw [← hrp]
      exact hm r hr
  · rw [if_neg h] at hp
    rcases List.mem_append.mp hp with hp | hp
    · exact hm p hp
    · have hpkv : p = (k, v) := by simpa using hp
      rw [hpkv]
      exact hv

/-- Every entry the reduce inserts carries the camel-case normalization
of its own description. -/
theorem claimFold_camel (opts : Options) (doc : Doc) :
    ∀ (nodes : List Attr) (acc m : List (String × Claim)),
      (∀ p ∈ acc, p.2.camelCase = lodashCamelCase p.2.description) →
      nodes.foldlM (claimStep opts doc) acc = .ok m →
      ∀ p ∈ m, p.2.camelCase = lodashCamelCase p.2.description
  | [], acc, m, hacc, hfold => by
    have hm : acc = m := by
      have : (Except.ok acc : Except JsErr (List (String × Claim))) = .ok m := hfold
      injection this
    rw [← hm]
    exact hacc
  | node :: rest, acc, m, hacc, hfold => by
    rw [List.foldlM_cons] at hfold
    cases hstep : claimStep opts doc acc node with
    | ok acc' =>
      rw [hstep, except_bind_ok] at hfold
      have hacc' : ∀ p ∈ acc', p.2.camelCase = lodashCamelCase p.2.description := by
        unfold claimStep at hstep
        cases hres : resolveFriendly doc node.value with
        | ok d =>
          rw [hres] at hstep
          injection hstep with hstep
          rw [← hstep]
          exact upsert_forall hacc rfl
        | error e =>
          rw [hres] at hstep
          have hstep' : (if opts.throwExceptions = true then Except.error e
              else Except.ok acc) = Except.ok acc' := hstep
          by_cases ht : opts.throwExceptions = true
          · rw [if_pos ht] at hstep'; exact absurd hstep' (by simp)
          · rw [if_neg ht] at hstep'
            injection hstep' with hstep'
            rw [← hstep']
            exact hacc
      exact claimFold_camel opts doc rest acc' m hacc' hfold
    | error e =>
      rw [hstep, except_bind_error] at hfold
      exact absurd hfold (by simp)

/-- C6: every claim descriptor in a `claimSchema` mapping carries as
its normalized key the camel-case normalization of its FriendlyName
description; in particular the two-attribute example document yields
exactly the normalized keys "emailAddress" and "fullName". -/
theorem c6_camelcase_keys (opts : Options) (doc : Doc) (m : List (String × Claim))
    (h : claimSchema opts doc = .ok (some m)) :
    (∀ p ∈ m, p.2.camelCase = lodashCamelCase p.2.description)
    ∧ claimSchema defaultOptions
        (mkClaimDoc [claimAttr "urn:email" "Email Address", claimAttr "urn:name" "Full Name"])
      = .ok (some
          [("urn:email", { name := "urn:email", description := "Email Address",
                           camelCase := "emailAddress" }),
           ("urn:name", { name := "urn:name", description := "Full Name",
                          camelCase := "fullName" })]) := by
  constructor
  · unfold claimSchema at h
    cases hdo : (do
        let nodes ← claimNamesResult doc
        nodes.foldlM (claimStep opts doc) ([] : List (String × Claim))) with
    | ok m' =>
      rw [hdo] at h
      have hm : m' = m := by
        have : (Except.ok (some m') : Except JsErr (Option (List (String × Claim))))
            = .ok (some m) := h
        injection this with this
        injection this
      cases hnames : claimNamesResult doc with
      | ok nodes =>
        rw [hnames, except_bind_ok] at hdo
        rw [← hm]
        exact claimFold_camel opts doc nodes [] m' (by simp) hdo
      | error e =>
        rw [hnames, except_bind_error] at hdo
        exact absurd hdo (by simp)
    | error e =>
      rw [hdo] at h
      have h' : (if opts.throwExceptions = true then Except.error e
          else Except.ok (some ([] : List (String × Claim)))) = Except.ok (some m) := h
      by_cases ht : opts.throwExceptions = true
      · rw [if_pos ht] at h'; exact absurd h' (by simp)
      · rw [if_neg ht] at h'
        have : ([] : List (String × Claim)) = m := by
          injection h' with h2
          injection h2
        rw [← this]
        intro p hp
        simp at hp
  · decide

/-- Witness for C6 at a concrete input. -/
theorem c6_camelcase_keys_witness :
    claimSchema defaultOptions
        (mkClaimDoc [claimAttr "urn:email" "Email Address", claimAttr "urn:name" "Full Name"])
      = .ok (some
          [("urn:email", { name := "urn:email", description := "Email Address",
                           camelCase := "emailAddress" }),
           ("urn:name", { name := "urn:name", description := "Full Name",
                          camelCase := "fullName" })])
    ∧ ∀ p ∈ [("urn:email", ({ name := "urn:email", description := "Email Address",
                              camelCase := "emailAddress" } : Claim)),
             ("urn:name", { name := "urn:name", description := "Full Name",
                            camelCase := "fullName" })],
        p.2.camelCase = lodashCamelCase p.2.description :=
  ⟨by decide,
    (c6_camelcase_keys defaultOptions
      (mkClaimDoc [claimAttr "urn:email" "Email Address", claimAttr "urn:name" "Full Name"])
      _ (by decide)).1⟩

/-- C7: on a document with no SingleSignOnService elements at all, the
empty-list index access fails inside the try-block and is caught:
`identityProviderUrl` returns the absent value when `throwExceptions`
is false and throws the caught TypeError when it is true — it never
escapes uncaught. -/
theorem c7_empty_sso (opts : Options) (doc : Doc) (h : doc.ssoQ = .ok []) :
    (opts.throwExceptions = false → identityProviderUrl opts doc = .ok none)
    ∧ (opts.throwExceptions = true →
        identityProviderUrl opts doc
          = .error (.typeError "reading attributes of undefined")) := by
  have hcore : identityProviderUrlCore opts.authnRequestBinding []
      = .error (.typeError "reading attributes of undefined") := rfl
  constructor
  · intro ht
    simp [identityProviderUrl, h, except_bind_ok, hcore, catchUndefined, ht]
  · intro ht
    simp [identityProviderUrl, h, except_bind_ok, hcore, catchUndefined, ht]

/-- Witness for C7 at a concrete input. -/
theorem c7_empty_sso_witness :
    ((mkSsoDoc []) : Doc).ssoQ = .ok []
    ∧ identityProviderUrl defaultOptions (mkSsoDoc []) = .ok none :=
  ⟨rfl, (c7_empty_sso defaultOptions (mkSsoDoc []) rfl).1 rfl⟩

/-- C8: `logoutUrl` computes exactly the same function as
`identityProviderUrl` with the SingleLogoutService query result
substituted for the SingleSignOnService one: the try-block bodies are
equal as functions, and the full getter agrees with
`identityProviderUrl` run on the document whose SSO query result is
replaced by the SLO one. -/
theorem c8_logout_equals_sso (opts : Options) (doc : Doc) :
    (∀ (binding : String) (es : List Element),
      logoutUrlCore binding es = identityProviderUrlCore binding es)
    ∧ logoutUrl opts doc = identityProviderUrl opts { doc with ssoQ := doc.sloQ } :=
  ⟨fun _ _ => rfl, rfl⟩

/-- C9: the sort key of a service element carrying an `index` attribute
is the raw attribute string while a missing index contributes the
number 0; consequently multi-digit indices order lexicographically —
the element with index "10" sorts before the element with index "2",
and with no binding match the fallback selects it. -/
theorem c9_lexicographic_index :
    (∀ (e : Element) (a : Attr), findAttrNamed e "index" = some a →
        serviceSortKey e = .str a.value)
    ∧ (∀ e : Element, findAttrNamed e "index" = none → serviceSortKey e = .num 0)
    ∧ lodashSortBy serviceSortKey [svcIdx "2" "u2", svcIdx "10" "u10"]
        = [svcIdx "10" "u10", svcIdx "2" "u2"]
    ∧ identityProviderUrl defaultOptions (mkSsoDoc [svcIdx "2" "u2", svcIdx "10" "u10"])
        = .ok (some "u10") := by
  refine ⟨?_, ?_, by decide, by decide⟩
  · intro e a h
    unfold serviceSortKey
    rw [h]
  · intro e h
    unfold serviceSortKey
    rw [h]

/-- Witness for C9 at a concrete input. -/
theorem c9_lexicographic_index_witness :
    findAttrNamed (svcIdx "7" "u7") "index" = some ⟨"index", "7"⟩
    ∧ serviceSortKey (svcIdx "7" "u7") = .str "7" :=
  ⟨by decide, c9_lexicographic_index.1 (svcIdx "7" "u7") ⟨"index", "7"⟩ (by decide)⟩

/-- A scanned string-literal body never contains the closing quote. -/
theorem takeLit_no_quote : ∀ (cs lit rest : List Char),
    takeLit cs = some (lit, rest) → '"' ∉ lit
  | [], lit, rest, h => by simp [takeLit] at h
  | c :: cs, lit, rest, h => by
    unfold takeLit at h
    by_cases hc : (c == '"') = true
    · rw [if_pos hc] at h
      injection h with h
      have hlit : lit = [] := by
        have := congrArg Prod.fst h
        simpa using this.symm
      rw [hlit]
      simp
    · rw [if_neg hc] at h
      cases htl : takeLit cs with
      | none => rw [htl] at h; simp at h
      | some p =>
        rw [htl] at h
        have hform : (c :: p.1, p.2) = (lit, rest) := by
          injection h
        have hlit : lit = c :: p.1 := by
          have := congrArg Prod.fst hform
          simpa using this.symm
        rw [hlit]
        intro hmem
        rcases List.mem_cons.mp hmem with hqc | hmem
        · exact absurd (by rw [hqc]; simp : (c == '"') = true) hc
        · exact takeLit_no_quote cs p.1 p.2 (by rw [htl]) hmem

/-- No literal parsed out of a predicate contains a double quote. -/
theorem parseNameClauses_no_quote : ∀ (fuel : Nat) (cs : List Char) (lits : List String),
    parseNameClauses fuel cs = some lits → ∀ l ∈ lits, '"' ∉ l.data
  | 0, cs, lits, h => by simp [parseNameClauses] at h
  | fuel + 1, cs, lits, h => by
    cases hdrop : dropExact "@Name=\"".data cs with
    | none => simp [parseNameClauses, hdrop] at h
    | some cs1 =>
      cases htake : takeLit cs1 with
      | none => simp [parseNameClauses, hdrop, htake] at h
      | some p =>
        obtain ⟨lit, rest⟩ := p
        cases rest with
        | nil =>
          simp only [parseNameClauses, hdrop, htake] at h
          have hlits : [String.mk lit] = lits := by
            simpa using h
          rw [← hlits]
          intro l hl
          have hleq : l = String.mk lit := by simpa using hl
          rw [hleq]
          exact takeLit_no_quote cs1 lit [] htake
        | cons r rs =>
          cases hdrop2 : dropExact " or ".data (r :: rs) with
          | none => simp [parseNameClauses, hdrop, htake, hdrop2] at h
          | some rest1 =>
            cases hrec : parseNameClauses fuel rest1 with
            | none => simp [parseNameClauses, hdrop, htake, hdrop2, hrec] at h
            | some lits2 =>
              simp only [parseNameClauses, hdrop, htake, hdrop2, hrec] at h
              have hlits : String.mk lit :: lits2 = lits := by
                simpa using h
              rw [← hlits]
              intro l hl
              rcases List.mem_cons.mp hl with hleq | hl
              · rw [hleq]
                exact takeLit_no_quote cs1 lit (r :: rs) htake
              · exact parseNameClauses_no_quote fuel rest1 lits2 hrec l hl

/-- A successful claim lookup query comes from parsed quote-free
literals selecting FriendlyName values of matching elements. -/
theorem evalClaimQuery_ok (doc : Doc) (q : String) (nodes : List String)
    (h : evalClaimQuery doc q = .ok nodes) :
    ∃ lits : List String, (∀ l ∈ lits, '"' ∉ l.data) ∧
      nodes = doc.claimAttrs.filterMap (fun el =>
        match getAttr el "Name" with
        | some n => if lits.contains n then getAttr el "FriendlyName" else none
        | none => none) := by
  cases hdrop : dropExact claimQueryHead.data q.data with
  | none => simp only [evalClaimQuery, hdrop] at h; exact absurd h (by simp)
  | some midTail =>
    simp only [evalClaimQuery, hdrop] at h
    by_cases hlen : midTail.length < claimQueryTail.data.length
    · rw [if_pos hlen] at h
      exact absurd h (by simp)
    · rw [if_neg hlen] at h
      by_cases heq : (midTail.drop (midTail.length - claimQueryTail.data.length)
          == claimQueryTail.data) = true
      · rw [if_pos heq] at h
        cases hparse : parseNameClauses (midTail.length + 1)
            (midTail.take (midTail.length - claimQueryTail.data.length)) with
        | none => simp only [hparse] at h; exact absurd h (by simp)
        | some lits =>
          simp only [hparse] at h
          refine ⟨lits, parseNameClauses_no_quote _ _ _ hparse, ?_⟩
          have hnodes : doc.claimAttrs.filterMap (fun el =>
              match getAttr el "Name" with
              | some n => if lits.contains n then getAttr el "FriendlyName" else none
              | none => none) = nodes := by
            simpa using h
          exact hnodes.symm
      · rw [if_neg heq] at h
        exact absurd h (by simp)

/-- One reduce step on a node whose resolution fails: skip or
rethrow. -/
theorem claimStep_error (opts : Options) (doc : Doc) (claims : List (String × Claim))
    (node : Attr) (e : JsErr) (hres : resolveFriendly doc node.value = .error e) :
    claimStep opts doc claims node
      = (if opts.throwExceptions then Except.error e else .ok claims) := by
  unfold claimStep
  rw [hres]

/-- C10 (amended): the interpolated FriendlyName lookup for an
attribute whose `Name` value contains a double quote can never compare
against that value itself — every parsed comparison literal is
quote-free — so the lookup either fails, in which case the claim is
skipped when `throwExceptions` is false and the error propagates when
it is true, or it succeeds by resolving the FriendlyName of an element
whose `Name` differs from the interpolated one. -/
theorem c10_quoted_name (doc : Doc) (name : String) (hq : '"' ∈ name.data) :
    (∀ v, resolveFriendly doc name = .ok v →
      ∃ el ∈ doc.claimAttrs, ∃ n, getAttr el "Name" = some n ∧ n ≠ name ∧
        getAttr el "FriendlyName" = some v)
    ∧ ∀ (opts : Options) (claims : List (String × Claim)) (node : Attr) (e : JsErr),
        node.value = name → resolveFriendly doc name = .error e →
        (opts.throwExceptions = false → claimStep opts doc claims node = .ok claims)
        ∧ (opts.throwExceptions = true → claimStep opts doc claims node = .error e) := by
  constructor
  · intro v hres
    unfold resolveFriendly at hres
    cases heval : evalClaimQuery doc (buildClaimQuery name) with
    | error e =>
      rw [heval, except_bind_error] at hres
      exact absurd hres (by simp)
    | ok nodes =>
      rw [heval, except_bind_ok] at hres
      obtain ⟨lits, hlits, hnodes⟩ := evalClaimQuery_ok doc _ nodes heval
      cases hhd : nodes.head? with
      | none =>
        rw [hhd] at hres
        have hres' : (Except.error (JsErr.typeError "reading value of undefined")
            : Except JsErr String) = .ok v := hres
        exact absurd hres' (by simp)
      | some v0 =>
        rw [hhd] at hres
        have hres' : (Except.ok v0 : Except JsErr String) = .ok v := hres
        have hv0 : v0 = v := by injection hres'
        have hvmem : v ∈ nodes := by
          rw [← hv0]
          exact List.mem_of_mem_head? (by simp [hhd])
        rw [hnodes] at hvmem
        obtain ⟨el, helmem, hel⟩ := List.mem_filterMap.mp hvmem
        cases hn : getAttr el "Name" with
        | none =>
          simp only [hn] at hel
          exact absurd hel (by simp)
        | some n =>
          simp only [hn] at hel
          by_cases hcont : (lits.contains n) = true
          · rw [if_pos hcont] at hel
            refine ⟨el, helmem, n, hn, ?_, hel⟩
            intro hne
            have hnlits : n ∈ lits := by simpa using hcont
            have hnq : '"' ∉ n.data := hlits n hnlits
            rw [hne] at hnq
            exact hnq hq
          · rw [if_neg hcont] at hel
            exact absurd hel (by simp)
  · intro opts claims node e hname hres
    have hstep := claimStep_error opts doc claims node e (by rw [hname]; exact hres)
    constructor
    · intro ht
      rw [hstep, ht]
      simp
    · intro ht
      rw [hstep, ht]
      simp

/-- The evil attribute name of the C10 counterexample: its embedded
double quote turns the interpolated predicate into valid XPath matching
a different attribute. -/
def evilName : String := "evil\" or @Name=\"good"

/-- C10 counterexample document: a benign claim attribute and one whose
`Name` contains a double quote yet has a FriendlyName of its own. -/
def c10doc : Doc :=
  mkClaimDoc [claimAttr "good" "Good Name", claimAttr evilName "Evil Name"]

/-- C10 counterexample: for the quoted name the interpolated lookup
does not fail — it resolves the other attribute's FriendlyName — so
the claim is not omitted from the mapping with `throwExceptions`
false, and nothing is thrown with it true, even though the document
holds a FriendlyName of its own for that attribute. -/
theorem c10_counterexample :
    '"' ∈ evilName.data
    ∧ getAttr (claimAttr evilName "Evil Name") "FriendlyName" = some "Evil Name"
    ∧ resolveFriendly c10doc evilName = .ok "Good Name"
    ∧ claimSchema defaultOptions c10doc
        = .ok (some [("good", { name := "good", description := "Good Name",
                                camelCase := "goodName" }),
                     (evilName, { name := evilName, description := "Good Name",
                                  camelCase := "goodName" })])
    ∧ claimSchema { authnRequestBinding := "HTTP-Redirect", throwExceptions := true } c10doc
        = .ok (some [("good", { name := "good", description := "Good Name",
                                camelCase := "goodName" }),
                     (evilName, { name := evilName, description := "Good Name",
                                  camelCase := "goodName" })]) :=
  ⟨by decide, by decide, by decide, by decide, by decide⟩

/-- Witness for the amended C10 at a concrete input: a quoted name
whose lookup parses but matches nothing, so the claim is skipped. -/
theorem c10_quoted_name_witness :
    '"' ∈ ("x\"y" : String).data
    ∧ (∀ (opts : Options) (claims : List (String × Claim)) (node : Attr) (e : JsErr),
        node.value = "x\"y" →
        resolveFriendly (mkClaimDoc [claimAttr "good" "Good Name"]) "x\"y" = .error e →
        (opts.throwExceptions = false →
          claimStep opts (mkClaimDoc [claimAttr "good" "Good Name"]) claims node = .ok claims)
        ∧ (opts.throwExceptions = true →
            claimStep opts (mkClaimDoc [claimAttr "good" "Good Name"]) claims node
              = .error e)) :=
  ⟨by decide,
    (c10_quoted_name (mkClaimDoc [claimAttr "good" "Good Name"]) "x\"y" (by decide)).2⟩
